import Mathlib

/-!
Verification development for the CIM-to-LBO automation script
(`streamlit_app.py`).  The Python source is shallowly embedded below:
pure helper functions (`extract_text`, `build_ai_prompt`,
`safe_json_parse`) become Lean functions, the module-level script body
becomes an explicit function from the run's inputs (language-model
response text, Streamlit session state, widget values) to a run result,
python dicts become association lists with python insertion-order
semantics, and `json.loads` is modelled by an executable fuel-based
parser of the JSON grammar used by Python's decoder.
-/

set_option maxHeartbeats 1000000

namespace LBO

/-! ## Python dict model

Python dicts keep insertion order; assigning to an existing key updates
the value in place, assigning to a fresh key appends at the end, and
`del` removes the entry. -/

def dictGet {κ α : Type} [DecidableEq κ] : List (κ × α) → κ → Option α
  | [], _ => none
  | kv :: rest, k => if kv.1 = k then some kv.2 else dictGet rest k

def dictSet {κ α : Type} [DecidableEq κ] : List (κ × α) → κ → α → List (κ × α)
  | [], k, v => [(k, v)]
  | kv :: rest, k, v => if kv.1 = k then (k, v) :: rest else kv :: dictSet rest k v

def dictDel {κ α : Type} [DecidableEq κ] : List (κ × α) → κ → List (κ × α)
  | [], _ => []
  | kv :: rest, k => if kv.1 = k then rest else kv :: dictDel rest k

def dictKeys {κ α : Type} (d : List (κ × α)) : List κ := d.map Prod.fst

/-! ## Python string helpers used by the script -/

/-- Python `s.endswith(t)` (ASCII case). -/
def strEndsWith (s t : String) : Bool :=
  t.data.length ≤ s.data.length &&
    decide (s.data.drop (s.data.length - t.data.length) = t.data)

/-- Python slice `s[:-n]` for `n ≤ len(s)`: drop the last `n` characters. -/
def strDropRight (s : String) (n : Nat) : String :=
  ⟨s.data.take (s.data.length - n)⟩

/-- Python `s.startswith(t)`. -/
def strStartsWith (s t : String) : Bool :=
  decide (s.data.take t.data.length = t.data)

/-- Characters stripped by Python `str.strip()` on the ASCII range
(`str.strip` also removes some further Unicode spaces; that difference
is immaterial for the JSON-bearing strings considered here). -/
def isPyWs (c : Char) : Bool :=
  c = ' ' || c = '\t' || c = '\n' || c = '\r' || c.toNat = 11 || c.toNat = 12

/-- Python `str.strip()`. -/
def pyStrip (l : List Char) : List Char :=
  ((l.dropWhile isPyWs).reverse.dropWhile isPyWs).reverse

/-- `re.sub(r"(three backticks)(json)?", "", text)`: scan left to right;
at each position a run of three backticks, optionally followed
(greedily) by `json`, is removed; any other character is kept. -/
def reSubFence : List Char → List Char
  | '\x60' :: '\x60' :: '\x60' :: 'j' :: 's' :: 'o' :: 'n' :: rest => reSubFence rest
  | '\x60' :: '\x60' :: '\x60' :: rest => reSubFence rest
  | c :: rest => c :: reSubFence rest
  | [] => []

/-- `true` iff the text contains a run of three consecutive backticks
(the start of any match of the fence-stripping pattern). -/
def hasFence : List Char → Bool
  | [] => false
  | c :: rest => (c = '\x60' && rest.take 2 = ['\x60', '\x60']) || hasFence rest

/-! ## JSON value model and a model of Python `json.loads`

Numeric literals are kept as their raw numeral text (Python converts
them to int/float; the numeral text determines that value, and no claim
below depends on numeric normalisation).  Lone surrogate escapes, which
Python keeps as surrogate code units, are clamped by `Char.ofNat`; no
claim below involves them. -/

inductive J where
  | null
  | bool (b : Bool)
  | num (raw : String)
  | str (s : String)
  | arr (elems : List J)
  | obj (fields : List (String × J))

/-- JSON whitespace skipped by Python's decoder: space, tab, LF, CR. -/
def isJsonWs (c : Char) : Bool :=
  c = ' ' || c = '\t' || c = '\n' || c = '\r'

def skipWs (l : List Char) : List Char := l.dropWhile isJsonWs

def hexVal (c : Char) : Option Nat :=
  if '0' ≤ c ∧ c ≤ '9' then some (c.toNat - 48)
  else if 'a' ≤ c ∧ c ≤ 'f' then some (c.toNat - 87)
  else if 'A' ≤ c ∧ c ≤ 'F' then some (c.toNat - 55)
  else none

/-- Scan a JSON string body (after the opening quote), decoding escape
sequences; Python's strict mode rejects raw control characters. -/
def parseStringBody : List Char → List Char → Option (String × List Char)
  | _, [] => none
  | acc, c :: rest =>
    if c = '"' then some (⟨acc.reverse⟩, rest)
    else if c = '\\' then
      match rest with
      | [] => none
      | e :: rest2 =>
        if e = '"' then parseStringBody ('"' :: acc) rest2
        else if e = '\\' then parseStringBody ('\\' :: acc) rest2
        else if e = '/' then parseStringBody ('/' :: acc) rest2
        else if e = 'b' then parseStringBody (Char.ofNat 8 :: acc) rest2
        else if e = 'f' then parseStringBody (Char.ofNat 12 :: acc) rest2
        else if e = 'n' then parseStringBody ('\n' :: acc) rest2
        else if e = 'r' then parseStringBody ('\r' :: acc) rest2
        else if e = 't' then parseStringBody ('\t' :: acc) rest2
        else if e = 'u' then
          -- Each \uXXXX escape is decoded on its own.  (Python's decoder
          -- additionally combines a high/low surrogate escape pair into one
          -- code point and keeps lone surrogates, which `Char` cannot
          -- represent; no input considered below contains surrogate escapes.)
          match rest2 with
          | h1 :: h2 :: h3 :: h4 :: rest3 =>
            match hexVal h1, hexVal h2, hexVal h3, hexVal h4 with
            | some a, some b, some c2, some d2 =>
              parseStringBody (Char.ofNat (((a * 16 + b) * 16 + c2) * 16 + d2) :: acc) rest3
            | _, _, _, _ => none
          | _ => none
        else none
    else if c.toNat < 0x20 then none
    else parseStringBody (c :: acc) rest

/-- Optional fractional part of a JSON numeral (`\.digits`). -/
def parseFracPart : List Char → List Char × List Char
  | '.' :: c :: rest =>
    if c.isDigit then
      let sp := (c :: rest).span Char.isDigit
      ('.' :: sp.1, sp.2)
    else ([], '.' :: c :: rest)
  | l => ([], l)

/-- Optional exponent part of a JSON numeral (`[eE][+-]?digits`). -/
def parseExpPart : List Char → List Char × List Char
  | [] => ([], [])
  | e :: rest =>
    if e = 'e' ∨ e = 'E' then
      match rest with
      | [] => ([], e :: rest)
      | s :: rest2 =>
        if s = '+' ∨ s = '-' then
          match rest2 with
          | [] => ([], e :: rest)
          | d :: rest3 =>
            if d.isDigit then
              let sp := (d :: rest3).span Char.isDigit
              (e :: s :: sp.1, sp.2)
            else ([], e :: rest)
        else if s.isDigit then
          let sp := (s :: rest2).span Char.isDigit
          (e :: sp.1, sp.2)
        else ([], e :: rest)
    else ([], e :: rest)

/-- The JSON number token grammar used by Python's decoder:
`-?(0|[1-9]digits)(.digits)?([eE][+-]?digits)?`, returned as
(consumed numeral text, remaining input). -/
def parseNumberTok (l : List Char) : Option (List Char × List Char) :=
  let sr : List Char × List Char :=
    match l with
    | '-' :: r => (['-'], r)
    | _ => ([], l)
  match sr.2 with
  | [] => none
  | c :: r =>
    if c = '0' then
      let f := parseFracPart r
      let e := parseExpPart f.2
      some (sr.1 ++ ['0'] ++ f.1 ++ e.1, e.2)
    else if c.isDigit then
      let sp := (c :: r).span Char.isDigit
      let f := parseFracPart sp.2
      let e := parseExpPart f.2
      some (sr.1 ++ sp.1 ++ f.1 ++ e.1, e.2)
    else none

def startsWithStr (l : List Char) (s : List Char) : Bool :=
  decide (l.take s.length = s)

/-- Python dict construction from parsed members: later duplicate keys
overwrite the value at the first occurrence's position. -/
def mkObj (fields : List (String × J)) : J :=
  J.obj (fields.foldl (fun d kv => dictSet d kv.1 kv.2) [])

mutual

/-- One JSON value, dispatching on the first character exactly as
Python's scanner does (string, object, array, `null`, `true`, `false`,
the accepted constants `NaN`/`Infinity`/`-Infinity`, then number). -/
def parseVal : Nat → List Char → Option (J × List Char)
  | 0, _ => none
  | fuel + 1, l =>
    match l with
    | [] => none
    | c :: rest =>
      if c = '"' then
        match parseStringBody [] rest with
        | some (s, r) => some (J.str s, r)
        | none => none
      else if c = Char.ofNat 123 then parseObjStart fuel (skipWs rest)
      else if c = '[' then parseArrStart fuel (skipWs rest)
      else if startsWithStr l ['n', 'u', 'l', 'l'] then some (J.null, l.drop 4)
      else if startsWithStr l ['t', 'r', 'u', 'e'] then some (J.bool true, l.drop 4)
      else if startsWithStr l ['f', 'a', 'l', 's', 'e'] then some (J.bool false, l.drop 5)
      else if startsWithStr l ['N', 'a', 'N'] then some (J.num "NaN", l.drop 3)
      else if startsWithStr l ['I', 'n', 'f', 'i', 'n', 'i', 't', 'y'] then
        some (J.num "Infinity", l.drop 8)
      else if startsWithStr l ['-', 'I', 'n', 'f', 'i', 'n', 'i', 't', 'y'] then
        some (J.num "-Infinity", l.drop 9)
      else
        match parseNumberTok l with
        | some (cs, r) => some (J.num ⟨cs⟩, r)
        | none => none

/-- Object body right after `\x7b` and whitespace: either an immediate
closing brace (empty object) or a member list. -/
def parseObjStart : Nat → List Char → Option (J × List Char)
  | 0, _ => none
  | fuel + 1, l =>
    match l with
    | [] => none
    | c :: rest =>
      if c = Char.ofNat 125 then some (J.obj [], rest)
      else parseMembers fuel l []

/-- Object members: `"key" : value`, separated by commas, ended by a
closing brace. -/
def parseMembers : Nat → List Char → List (String × J) → Option (J × List Char)
  | 0, _, _ => none
  | fuel + 1, l, acc =>
    match l with
    | [] => none
    | c :: rest =>
      if c = '"' then
        match parseStringBody [] rest with
        | some (k, r1) =>
          match skipWs r1 with
          | ':' :: r2 =>
            match parseVal fuel (skipWs r2) with
            | some (v, r3) =>
              match skipWs r3 with
              | [] => none
              | c2 :: r4 =>
                if c2 = Char.ofNat 125 then some (mkObj (acc ++ [(k, v)]), r4)
                else if c2 = ',' then parseMembers fuel (skipWs r4) (acc ++ [(k, v)])
                else none
            | none => none
          | _ => none
        | none => none
      else none

/-- Array body right after `[` and whitespace. -/
def parseArrStart : Nat → List Char → Option (J × List Char)
  | 0, _ => none
  | fuel + 1, l =>
    match l with
    | [] => none
    | c :: rest =>
      if c = ']' then some (J.arr [], rest)
      else parseElems fuel l

/-- Array elements separated by commas, ended by a closing bracket. -/
def parseElems : Nat → List Char → Option (J × List Char)
  | 0, _ => none
  | fuel + 1, l =>
    match parseVal fuel l with
    | some (v, r) =>
      match skipWs r with
      | [] => none
      | c :: r2 =>
        if c = ']' then some (J.arr [v], r2)
        else if c = ',' then
          match parseElems fuel (skipWs r2) with
          | some (J.arr vs, r3) => some (J.arr (v :: vs), r3)
          | _ => none
        else none
    | none => none

end

/-- Python `json.loads`: skip leading whitespace, parse one value, and
require that only whitespace remains; any failure raises
`JSONDecodeError`, modelled as `none`.  The fuel `length + 2` is
sufficient because every recursive descent first consumes input. -/
def pyLoads (l : List Char) : Option J :=
  match parseVal (l.length + 2) (skipWs l) with
  | some (v, rest) => if (skipWs rest).isEmpty then some v else none
  | none => none

def jsonLoads (s : String) : Option J := pyLoads s.data

/-- The cleanup inside `safe_json_parse`:
`re.sub(r"(fence)(json)?", "", text).strip()`. -/
def cleanResponse (s : String) : String := ⟨pyStrip (reSubFence s.data)⟩

/-- `safe_json_parse`: clean the response text and decode it, returning
`None` when `json.loads` raises `JSONDecodeError` (the raw text is then
surfaced by `st.code(text)`, which `runScript` records). -/
def safe_json_parse (s : String) : Option J := jsonLoads (cleanResponse s)

/-- Markdown code fencing around a response, as produced by a model that
wraps its JSON answer in a fenced block. -/
def fenceWrap (s : String) : String := "```json\n" ++ s ++ "\n```"

/-! ## Text extraction (`extract_text`) -/

/-- One PDF page: its embedded text layer as read by `fitz`
(`page.get_text()`), as read by `pdfplumber` (`page.extract_text()`,
which may be `None`), and the OCR service's output for the page's
300-dpi bitmap render. -/
structure PdfPage where
  fitzText : String
  plumberText : Option String
  ocrText : String

/-- The uploaded CIM document, dispatched on `file.type`. -/
inductive CimFile where
  | pdf (pages : List PdfPage)
  | image (ocrText : String)

/-- The generator filter `if page.extract_text()`: keep only pages
whose text-layer read is truthy (present and non-empty). -/
def plumberKeep (p : PdfPage) : Option String :=
  match p.plumberText with
  | some t => if t = "" then none else some t
  | none => none

/-- The OCR loop: `text += response.full + newline` per page, in page
order, starting from the empty string. -/
def ocrConcat (pages : List PdfPage) : String :=
  pages.foldl (fun acc p => acc ++ p.ocrText ++ "\n") ""

/-- `extract_text`: for a PDF, check `any(page.get_text() ...)`; if some
page has non-empty embedded text use the pdfplumber text layer joined
with newlines, otherwise OCR every rendered page; non-PDF uploads go
straight to OCR. -/
def extract_text : CimFile → String
  | .pdf pages =>
    let is_digital := pages.any (fun p => p.fitzText ≠ "")
    if is_digital then
      String.intercalate "\n" (pages.filterMap plumberKeep)
    else
      ocrConcat pages
  | .image t => t

/-! ## Prompt builder (`build_ai_prompt`) -/

def promptHeader : String :=
  "\nYou are analyzing OCR output from a Confidential Information Memorandum (CIM) for an LBO model.\n\nExtract these financials and return ONLY valid JSON:\n1. Revenue (3 historical + 6 projected years)\n2. EBITDA (group variants under EBITDA_Candidates if multiple found)\n3. Maintenance CapEx\n4. Acquisition Count\n\nIf you find multiple variants of the same metric (e.g., \"Adjusted EBITDA\", \"EBITDA\", \"Normalized EBITDA\"), \ngroup them under a \"_Candidates\" key like this:\n\x7b\n  \"Revenue\": [list of revenue values],\n  \"EBITDA_Candidates\": \x7b\n    \"Adjusted EBITDA\": [values],\n    \"EBITDA\": [values],\n    \"Normalized EBITDA\": [values]\n  \x7d,\n  \"Maintenance_CapEx\": [values],\n  \"Acquisition_Count\": number\n\x7d\n\nText:\n"

def promptFooter : String := "\n"

/-- `build_ai_prompt`: the f-string template with the full extracted
text interpolated after `Text:`. -/
def build_ai_prompt (text : String) : String :=
  promptHeader ++ text ++ promptFooter

/-! ## Candidate detection and confirmation -/

/-- The loop body of candidate detection: a top-level entry is a
candidate group iff its key ends with `_Candidates` and its value is a
dict; the group is stored under the key with that suffix removed
(`key[:-11]`). -/
def detect1 (kv : String × J) : Option (String × List (String × J)) :=
  if strEndsWith kv.1 "_Candidates" then
    match kv.2 with
    | J.obj g => some (strDropRight kv.1 11, g)
    | _ => none
  else none

/-- `candidate_metrics`: the dict built by scanning `cim_data.items()`
in order. -/
def candidateMetrics (d : List (String × J)) : List (String × List (String × J)) :=
  d.foldl (fun acc kv =>
    match detect1 kv with
    | some mg => dictSet acc mg.1 mg.2
    | none => acc) []

/-- The confirm-selections handler: for each `(metric, variant)` in
order, `cim_data[metric] = cim_data[metric + "_Candidates"][variant]`
then `del cim_data[metric + "_Candidates"]`; a missing key or a
non-dict group value raises (modelled as `none`). -/
def confirmSelections : List (String × J) → List (String × String) → Option (List (String × J))
  | d, [] => some d
  | d, (m, sel) :: rest =>
    match dictGet d (m ++ "_Candidates") with
    | some (J.obj g) =>
      match dictGet g sel with
      | some v => confirmSelections (dictDel (dictSet d m v) (m ++ "_Candidates")) rest
      | none => none
    | _ => none

/-! ## The module-level script body as one run -/

structure SessionState where
  selections_made : Bool
  user_selections : List (String × String)

structure RunResult where
  /-- Raw response text shown via `st.code` when decoding fails. -/
  surfacedRaw : Option String
  /-- An uncaught Python exception ended the run. -/
  crashed : Bool
  /-- `st.rerun()` ended the run (a fresh run follows). -/
  reran : Bool
  /-- The run reached the Excel-processing stage (workbook load, GPT
  mapping, serialization). -/
  excelReached : Bool
  /-- `cim_data` when the run ended (after any confirmation edits). -/
  cimFinal : Option (List (String × J))
  sessionAfter : SessionState

/-- One execution of the script body from the point where the
language-model response text is in hand: parse it, detect candidate
groups, gate on operator confirmation, and only then fall through to
the Excel stage.  `pick` gives each metric's selectbox value and
`buttonPressed` whether the confirm button was clicked this run. -/
def runScript (resp : String) (sess : SessionState) (buttonPressed : Bool)
    (pick : String → String) : RunResult :=
  match safe_json_parse resp with
  | none =>
    { surfacedRaw := some resp, crashed := false, reran := false,
      excelReached := false, cimFinal := none, sessionAfter := sess }
  | some (J.obj fields) =>
    let cm := candidateMetrics fields
    if cm.isEmpty then
      { surfacedRaw := none, crashed := false, reran := false,
        excelReached := true, cimFinal := some fields, sessionAfter := sess }
    else
      let all_selected := cm.all (fun p => !p.2.isEmpty)
      let user_selections := (cm.filter (fun p => !p.2.isEmpty)).map (fun p => (p.1, pick p.1))
      if all_selected && buttonPressed then
        match confirmSelections fields user_selections with
        | some fields' =>
          { surfacedRaw := none, crashed := false, reran := true,
            excelReached := false, cimFinal := some fields',
            sessionAfter := { selections_made := true, user_selections := user_selections } }
        | none =>
          { surfacedRaw := none, crashed := true, reran := false,
            excelReached := false, cimFinal := none, sessionAfter := sess }
      else if !sess.selections_made then
        { surfacedRaw := none, crashed := false, reran := false,
          excelReached := false, cimFinal := some fields, sessionAfter := sess }
      else
        { surfacedRaw := none, crashed := false, reran := false,
          excelReached := true, cimFinal := some fields, sessionAfter := sess }
  | some _ =>
    { surfacedRaw := none, crashed := true, reran := false,
      excelReached := false, cimFinal := none, sessionAfter := sess }

/-! ## Spreadsheet metadata extraction and the advisory stage -/

inductive CellVal where
  | empty
  | s (v : String)
  | i (v : Int)
  | b (v : Bool)
deriving DecidableEq

/-- Python truthiness of a cell value (`if cell.value and ...`). -/
def pyTruthyCell : CellVal → Bool
  | .empty => false
  | .s v => v ≠ ""
  | .i v => v ≠ 0
  | .b v => v

/-- A worksheet: openpyxl's computed extents plus the cells produced by
`iter_rows()` in row-major order, as (coordinate, value) pairs. -/
structure Sheet where
  name : String
  maxRow : Nat
  maxCol : Nat
  cells : List (String × CellVal)

structure SheetMeta where
  max_row : Nat
  max_col : Nat
  formulas : List (String × String)
deriving DecidableEq

/-- The loop condition
`cell.value and isinstance(cell.value, str) and cell.value.startswith("=")`,
returning the formula text verbatim when it holds. -/
def formulaOf (v : CellVal) : Option String :=
  match v with
  | .s t => if t ≠ "" && strStartsWith t "=" then some t else none
  | _ => none

/-- All formula-bearing cells of a sheet, in `iter_rows` order. -/
def formulaCells (sheet : Sheet) : List (String × String) :=
  sheet.cells.filterMap (fun cv => (formulaOf cv.2).map (fun f => (cv.1, f)))

/-- One sheet's metadata record: extents plus `formulas[:10]`. -/
def extractSheetMeta (sheet : Sheet) : SheetMeta :=
  { max_row := sheet.maxRow
    max_col := sheet.maxCol
    formulas := (formulaCells sheet).take 10 }

/-- The `metadata` dict built over all sheets. -/
def extractMetadata (sheets : List Sheet) : List (String × SheetMeta) :=
  sheets.map (fun sh => (sh.name, extractSheetMeta sh))

structure ExcelRunOut where
  metadata : List (String × SheetMeta)
  savedWorkbook : List Sheet

/-- The advisory Excel stage (lines 172-212): load the workbook, read
its metadata, ask the model for a free-text mapping suggestion (shown
read-only), and serialize the workbook for download without having
written any cell. -/
def excelAdvisoryStage (wb : List Sheet) : ExcelRunOut :=
  { metadata := extractMetadata wb, savedWorkbook := wb }

/-! ## Direct-write mapping policy (spec-modelled) -/

inductive Diag where
  | missingDestination (key : String)
deriving DecidableEq

structure DWState where
  /-- Workbook cell contents keyed by (sheet, coordinate). -/
  cells : List ((String × String) × J)
  /-- Every (destination, value) write performed, in order. -/
  writes : List ((String × String) × J)
  diags : List Diag

/-- Modelled from the spec: the direct-write mapping policy is absent
from `src/` (only the advisory flow is implemented); per spec section
4.6, for each metric key of the resolved result set in order, look up a
named range with that exact key name; if found, write the value into
every destination cell the range resolves to; if not found, record a
"no destination for key" diagnostic and continue with the next key. -/
def directWrite (namedRanges : List (String × List (String × String))) :
    List (String × J) → List ((String × String) × J) → DWState
  | [], cells => { cells := cells, writes := [], diags := [] }
  | (k, v) :: rest, cells =>
    match dictGet namedRanges k with
    | some dests =>
      let st := directWrite namedRanges rest (dests.foldl (fun cs d => dictSet cs d v) cells)
      { st with writes := dests.map (fun d => (d, v)) ++ st.writes }
    | none =>
      let st := directWrite namedRanges rest cells
      { st with diags := Diag.missingDestination k :: st.diags }

/-! ## Concrete fixtures used by witnesses and counterexamples -/

/-- A well-formed JSON object text whose string value contains a run of
three backticks. -/
def jsonBticks : String := "\x7b\"a\": \"x```y\"\x7d"

/-- Projection used to tell two decoded objects apart without needing
decidable equality on `J`. -/
def firstField : Option J → Option (String × J)
  | some (J.obj (f :: _)) => some f
  | _ => none

/-- A sheet holding eleven formula cells. -/
def sheetC7 : Sheet :=
  { name := "Model", maxRow := 11, maxCol := 2,
    cells := [("A1", CellVal.s "=B1"), ("A2", CellVal.s "=B2"), ("A3", CellVal.s "=B3"),
      ("A4", CellVal.s "=B4"), ("A5", CellVal.s "=B5"), ("A6", CellVal.s "=B6"),
      ("A7", CellVal.s "=B7"), ("A8", CellVal.s "=B8"), ("A9", CellVal.s "=B9"),
      ("A10", CellVal.s "=B10"), ("A11", CellVal.s "=B11")] }

/-- A small sheet with one formula cell and one plain cell. -/
def sheetW7 : Sheet :=
  { name := "Inputs", maxRow := 2, maxCol := 2,
    cells := [("A1", CellVal.s "=SUM(B:B)"), ("A2", CellVal.i 7)] }

/-- Named ranges for the direct-write witness: only `Revenue` is bound. -/
def nrW9 : List (String × List (String × String)) :=
  [("Revenue", [("Model", "B2"), ("Model", "C2")])]

/-! ## Dictionary lemmas -/

theorem dictGet_set_self {κ α : Type} [DecidableEq κ] (d : List (κ × α)) (k : κ) (v : α) :
    dictGet (dictSet d k v) k = some v := by
  induction d with
  | nil => simp [dictSet, dictGet]
  | cons kv rest ih =>
    obtain ⟨a, b⟩ := kv
    by_cases h : a = k
    · subst h; simp [dictSet, dictGet]
    · simp [dictSet, dictGet, h, ih]

theorem dictGet_set_ne {κ α : Type} [DecidableEq κ] (d : List (κ × α)) (k k' : κ) (v : α)
    (h : k' ≠ k) : dictGet (dictSet d k v) k' = dictGet d k' := by
  induction d with
  | nil => simp [dictSet, dictGet, Ne.symm h]
  | cons kv rest ih =>
    obtain ⟨a, b⟩ := kv
    by_cases hk : a = k
    · subst hk; simp [dictSet, dictGet, Ne.symm h]
    · simp [dictSet, dictGet, hk, ih]

theorem dictGet_del_ne {κ α : Type} [DecidableEq κ] (d : List (κ × α)) (k k' : κ)
    (h : k' ≠ k) : dictGet (dictDel d k) k' = dictGet d k' := by
  induction d with
  | nil => simp [dictDel]
  | cons kv rest ih =>
    obtain ⟨a, b⟩ := kv
    by_cases hk : a = k
    · subst hk; simp [dictDel, dictGet, Ne.symm h]
    · simp [dictDel, dictGet, hk, ih]

theorem dictGet_eq_none_of_not_mem {κ α : Type} [DecidableEq κ] (d : List (κ × α)) (k : κ)
    (h : k ∉ dictKeys d) : dictGet d k = none := by
  induction d with
  | nil => simp [dictGet]
  | cons kv rest ih =>
    simp only [dictKeys, List.map_cons, List.mem_cons, not_or] at h
    have hne : kv.1 ≠ k := fun he => h.1 he.symm
    simp only [dictGet, if_neg hne]
    exact ih h.2

theorem dictGet_del_self {κ α : Type} [DecidableEq κ] (d : List (κ × α)) (k : κ)
    (h : (dictKeys d).Nodup) : dictGet (dictDel d k) k = none := by
  induction d with
  | nil => simp [dictDel, dictGet]
  | cons kv rest ih =>
    obtain ⟨a, b⟩ := kv
    simp only [dictKeys, List.map_cons, List.nodup_cons] at h
    by_cases hk : a = k
    · subst hk
      simp only [dictDel, if_pos rfl]
      exact dictGet_eq_none_of_not_mem rest a h.1
    · simp only [dictDel, if_neg hk, dictGet, if_neg hk]
      exact ih h.2

theorem mem_dictKeys_set {κ α : Type} [DecidableEq κ] (d : List (κ × α)) (k k' : κ) (v : α) :
    k' ∈ dictKeys (dictSet d k v) ↔ k' ∈ dictKeys d ∨ k' = k := by
  induction d with
  | nil => simp [dictSet, dictKeys]
  | cons kv rest ih =>
    obtain ⟨a, b⟩ := kv
    by_cases hk : a = k
    · subst hk; simp [dictSet, dictKeys]; tauto
    · simp only [dictSet, if_neg hk, dictKeys, List.map_cons, List.mem_cons]
      rw [show (dictSet rest k v).map Prod.fst = dictKeys (dictSet rest k v) from rfl]
      rw [show rest.map Prod.fst = dictKeys rest from rfl]
      rw [ih]
      tauto

theorem dictKeys_set_nodup {κ α : Type} [DecidableEq κ] (d : List (κ × α)) (k : κ) (v : α)
    (h : (dictKeys d).Nodup) : (dictKeys (dictSet d k v)).Nodup := by
  induction d with
  | nil => simp [dictSet, dictKeys]
  | cons kv rest ih =>
    obtain ⟨a, b⟩ := kv
    simp only [dictKeys, List.map_cons, List.nodup_cons] at h
    by_cases hk : a = k
    · subst hk
      simpa [dictSet, dictKeys, List.nodup_cons] using h
    · simp only [dictSet, if_neg hk, dictKeys, List.map_cons, List.nodup_cons]
      refine ⟨?_, ih h.2⟩
      intro hmem
      rcases (mem_dictKeys_set rest k a v).1 hmem with h1 | h1
      · exact h.1 h1
      · exact hk h1

theorem dictKeys_del_sublist {κ α : Type} [DecidableEq κ] (d : List (κ × α)) (k : κ) :
    (dictKeys (dictDel d k)).Sublist (dictKeys d) := by
  induction d with
  | nil => simp [dictDel]
  | cons kv rest ih =>
    by_cases hk : kv.1 = k
    · simp only [dictDel, if_pos hk, dictKeys, List.map_cons]
      exact List.sublist_cons_self _ _
    · simp only [dictDel, if_neg hk, dictKeys, List.map_cons]
      exact ih.cons₂ _

theorem dictKeys_del_nodup {κ α : Type} [DecidableEq κ] (d : List (κ × α)) (k : κ)
    (h : (dictKeys d).Nodup) : (dictKeys (dictDel d k)).Nodup :=
  h.sublist (dictKeys_del_sublist d k)

theorem dictGet_of_mem_nodup {κ α : Type} [DecidableEq κ] {d : List (κ × α)} {k : κ} {v : α}
    (hm : (k, v) ∈ d) (h : (dictKeys d).Nodup) : dictGet d k = some v := by
  induction d with
  | nil => simp at hm
  | cons kv rest ih =>
    simp only [dictKeys, List.map_cons, List.nodup_cons] at h
    rcases List.mem_cons.1 hm with h1 | h1
    · subst h1; simp [dictGet]
    · have hne : kv.1 ≠ k := by
        intro he
        exact h.1 (he ▸ List.mem_map_of_mem Prod.fst h1)
      simp only [dictGet, if_neg hne]
      exact ih h1 h.2

theorem dictSet_of_not_mem {κ α : Type} [DecidableEq κ] (d : List (κ × α)) (k : κ) (v : α)
    (h : k ∉ dictKeys d) : dictSet d k v = d ++ [(k, v)] := by
  induction d with
  | nil => simp [dictSet]
  | cons kv rest ih =>
    simp only [dictKeys, List.map_cons, List.mem_cons, not_or] at h
    have hne : kv.1 ≠ k := fun he => h.1 he.symm
    simp only [dictSet, if_neg hne, List.cons_append]
    rw [ih h.2]

/-! ## String lemmas -/

theorem strExt {s t : String} (h : s.data = t.data) : s = t := by
  cases s; cases t; exact congrArg String.mk h

theorem str_data_append (s t : String) : (s ++ t).data = s.data ++ t.data := by
  cases s; cases t; rfl

theorem cand_data_len : ("_Candidates" : String).data.length = 11 := rfl

theorem strEndsWith_append (m : String) :
    strEndsWith (m ++ "_Candidates") "_Candidates" = true := by
  unfold strEndsWith
  rw [Bool.and_eq_true, decide_eq_true_eq, decide_eq_true_eq, str_data_append,
    List.length_append, cand_data_len, Nat.add_sub_cancel]
  exact ⟨by omega, List.drop_left m.data _⟩

theorem strDropRight_append (m : String) :
    strDropRight (m ++ "_Candidates") 11 = m := by
  apply strExt
  show ((m ++ "_Candidates").data.take ((m ++ "_Candidates").data.length - 11)) = m.data
  rw [str_data_append, List.length_append, cand_data_len, Nat.add_sub_cancel]
  exact List.take_left m.data _

theorem eq_append_of_strEndsWith {k : String} (h : strEndsWith k "_Candidates" = true) :
    k = strDropRight k 11 ++ "_Candidates" := by
  unfold strEndsWith at h
  rw [Bool.and_eq_true, decide_eq_true_eq, decide_eq_true_eq, cand_data_len] at h
  apply strExt
  rw [str_data_append]
  show k.data = k.data.take (k.data.length - 11) ++ "_Candidates".data
  conv_lhs => rw [← List.take_append_drop (k.data.length - 11) k.data]
  rw [h.2]

theorem append_cancel_str {m₁ m₂ t : String} (h : m₁ ++ t = m₂ ++ t) : m₁ = m₂ := by
  apply strExt
  have := congrArg String.data h
  rw [str_data_append, str_data_append] at this
  exact List.append_cancel_right this

theorem ne_of_not_strEndsWith {m m' : String} (h : strEndsWith m "_Candidates" = false) :
    m ≠ m' ++ "_Candidates" := by
  intro he
  rw [he, strEndsWith_append] at h
  cases h

theorem append_cand_ne_self (m : String) : m ++ "_Candidates" ≠ m := by
  intro he
  have hd : (m ++ "_Candidates").data = m.data := congrArg String.data he
  rw [str_data_append] at hd
  have hlen := congrArg List.length hd
  rw [List.length_append, cand_data_len] at hlen
  omega

/-! ## Fence-stripping lemmas -/

theorem reSubFence_cons_ne (c : Char) (l : List Char)
    (h : ¬(c = '\x60' ∧ l.take 2 = ['\x60', '\x60'])) :
    reSubFence (c :: l) = c :: reSubFence l := by
  apply reSubFence.eq_3
  · rintro r rfl hl
    exact h ⟨rfl, by simp [hl]⟩
  · rintro r rfl hl
    exact h ⟨rfl, by simp [hl]⟩

theorem hasFence_cons (c : Char) (l : List Char) :
    hasFence (c :: l) = ((c = '\x60' && l.take 2 = ['\x60', '\x60']) || hasFence l) := rfl

theorem take2_head {l : List Char} (h : l.take 2 = ['\x60', '\x60']) : l.head? = some '\x60' := by
  cases l with
  | nil => simp at h
  | cons r rs =>
    simp only [List.take_succ_cons, List.cons.injEq] at h
    simp [h.1]

theorem not_fence_start {t rest : List Char} (ht : hasFence t = false)
    (hr : rest.head? ≠ some '\x60') (c : Char) (l : List Char)
    (happ : t ++ rest = c :: l) : ¬(c = '\x60' ∧ l.take 2 = ['\x60', '\x60']) := by
  rintro ⟨rfl, h2⟩
  cases t with
  | nil =>
    rw [List.nil_append] at happ
    apply hr
    rw [happ]; rfl
  | cons a t1 =>
    rw [List.cons_append] at happ
    injection happ with ha happ1
    subst ha
    cases t1 with
    | nil =>
      rw [List.nil_append] at happ1
      subst happ1
      exact hr (take2_head h2)
    | cons b t2 =>
      rw [List.cons_append] at happ1
      subst happ1
      simp only [List.take_succ_cons, List.cons.injEq] at h2
      obtain ⟨hb, h2'⟩ := h2
      subst hb
      cases t2 with
      | nil =>
        rw [List.nil_append] at h2'
        apply hr
        cases rest with
        | nil => simp at h2'
        | cons r rs =>
          simp only [List.take_succ_cons, List.take_zero, List.cons.injEq] at h2'
          simp [h2'.1]
      | cons d t3 =>
        rw [List.cons_append] at h2'
        simp only [List.take_succ_cons, List.take_zero, List.cons.injEq] at h2'
        obtain ⟨hd, -⟩ := h2'
        subst hd
        rw [hasFence_cons] at ht
        simp [List.take_succ_cons, List.take_zero] at ht

theorem reSubFence_json_head (X : List Char) :
    reSubFence ('\x60' :: '\x60' :: '\x60' :: 'j' :: 's' :: 'o' :: 'n' :: X) = reSubFence X := rfl

theorem reSubFence_nl_head (X : List Char) :
    reSubFence ('\n' :: X) = '\n' :: reSubFence X := rfl

theorem reSubFence_append {t rest : List Char} (ht : hasFence t = false)
    (hr : rest.head? ≠ some '\x60') :
    reSubFence (t ++ rest) = t ++ reSubFence rest := by
  induction t with
  | nil => simp
  | cons c t' ih =>
    have ht' : hasFence t' = false := by
      rw [hasFence_cons] at ht
      exact (Bool.or_eq_false_iff.1 ht).2
    rw [List.cons_append,
      reSubFence_cons_ne c (t' ++ rest) (not_fence_start ht hr c (t' ++ rest) rfl),
      ih ht']
    rfl

theorem head_decomp {l : List Char} {c : Char} (h : l.head? = some c) : ∃ u, l = c :: u := by
  cases l with
  | nil => simp at h
  | cons a u =>
    simp only [List.head?_cons, Option.some.injEq] at h
    exact ⟨u, by rw [h]⟩

theorem pyStrip_nl_wrap {td : List Char} (hh : td.head? = some (Char.ofNat 123))
    (hl : td.getLast? = some (Char.ofNat 125)) :
    pyStrip ('\n' :: (td ++ ['\n'])) = td := by
  obtain ⟨tt, htt⟩ := head_decomp hh
  unfold pyStrip
  rw [htt, List.cons_append]
  rw [List.dropWhile_cons, if_pos (by rfl : isPyWs '\n' = true)]
  rw [List.dropWhile_cons, if_neg (by decide : ¬isPyWs (Char.ofNat 123) = true)]
  rw [show Char.ofNat 123 :: (tt ++ ['\n']) = (Char.ofNat 123 :: tt) ++ ['\n'] from rfl]
  rw [List.reverse_append]
  rw [show (['\n'] : List Char).reverse = ['\n'] from rfl]
  rw [show (['\n'] : List Char) ++ (Char.ofNat 123 :: tt).reverse
      = '\n' :: (Char.ofNat 123 :: tt).reverse from rfl]
  rw [List.dropWhile_cons, if_pos (by rfl : isPyWs '\n' = true)]
  have hrev : (Char.ofNat 123 :: tt).reverse.head? = some (Char.ofNat 125) := by
    rw [List.head?_reverse, ← htt]
    exact hl
  obtain ⟨u, hu⟩ := head_decomp hrev
  rw [hu, List.dropWhile_cons, if_neg (by decide : ¬isPyWs (Char.ofNat 125) = true), ← hu,
    List.reverse_reverse, ← htt]

/-- Under the conditions of claim C2's amendment, cleaning the fenced
response recovers exactly the original JSON text. -/
theorem cleanResponse_fenceWrap (t : String) (hf : hasFence t.data = false)
    (hh : t.data.head? = some (Char.ofNat 123))
    (hl : t.data.getLast? = some (Char.ofNat 125)) :
    cleanResponse (fenceWrap t) = t := by
  apply strExt
  show pyStrip (reSubFence (fenceWrap t).data) = t.data
  have hdata : (fenceWrap t).data
      = '\x60' :: '\x60' :: '\x60' :: 'j' :: 's' :: 'o' :: 'n' :: '\n' :: (t.data ++ ['\n', '\x60', '\x60', '\x60']) := by
    show (("```json\n" ++ t) ++ "\n```").data = _
    rw [str_data_append, str_data_append, List.append_assoc]
    rfl
  rw [hdata, reSubFence_json_head, reSubFence_nl_head,
    reSubFence_append hf (by decide : (['\n', '\x60', '\x60', '\x60'] : List Char).head? ≠ some '\x60'),
    show reSubFence ['\n', '\x60', '\x60', '\x60'] = ['\n'] from rfl]
  exact pyStrip_nl_wrap hh hl

/-! ## Candidate-detection lemmas -/

theorem detect1_some_iff (k : String) (v : J) (n : String) (g : List (String × J)) :
    detect1 (k, v) = some (n, g) ↔
      strEndsWith k "_Candidates" = true ∧ v = J.obj g ∧ n = strDropRight k 11 := by
  constructor
  · intro h
    unfold detect1 at h
    by_cases hse : strEndsWith k "_Candidates" = true
    · rw [if_pos hse] at h
      cases v with
      | obj fields =>
        simp only [Option.some.injEq, Prod.mk.injEq] at h
        exact ⟨hse, by rw [h.2], h.1.symm⟩
      | null => simp at h
      | bool b => simp at h
      | num r => simp at h
      | str s => simp at h
      | arr xs => simp at h
    · rw [if_neg hse] at h
      simp at h
  · rintro ⟨hse, rfl, rfl⟩
    unfold detect1
    rw [if_pos hse]

theorem detect_names_nodup (d : List (String × J)) (hnd : (dictKeys d).Nodup) :
    ((d.filterMap detect1).map Prod.fst).Nodup := by
  induction d with
  | nil => simp
  | cons kv rest ih =>
    simp only [dictKeys, List.map_cons, List.nodup_cons] at hnd
    cases hdet : detect1 kv with
    | none => simpa [List.filterMap_cons, hdet] using ih hnd.2
    | some mg =>
      obtain ⟨n, g⟩ := mg
      obtain ⟨k, v⟩ := kv
      obtain ⟨hse, hv, hn⟩ := (detect1_some_iff k v n g).1 hdet
      simp only [List.filterMap_cons, hdet, List.map_cons, List.nodup_cons]
      refine ⟨?_, ih hnd.2⟩
      intro hmem
      rw [List.mem_map] at hmem
      obtain ⟨⟨n', g'⟩, hmem', hn'⟩ := hmem
      rw [List.mem_filterMap] at hmem'
      obtain ⟨⟨k', v'⟩, hk'mem, hdet'⟩ := hmem'
      obtain ⟨hse', hv', hn''⟩ := (detect1_some_iff k' v' n' g').1 hdet'
      have hn'2 : n' = n := hn'
      have hkk : k = k' := by
        rw [eq_append_of_strEndsWith hse, eq_append_of_strEndsWith hse', ← hn, ← hn'', hn'2]
      have hkmem : k ∈ List.map Prod.fst rest := by
        rw [hkk]
        exact List.mem_map_of_mem Prod.fst hk'mem
      exact hnd.1 hkmem

theorem candidateMetrics_foldl_eq (d : List (String × J)) :
    ∀ acc : List (String × List (String × J)),
    (∀ mg ∈ d.filterMap detect1, mg.1 ∉ dictKeys acc) →
    ((d.filterMap detect1).map Prod.fst).Nodup →
    d.foldl (fun acc kv =>
      match detect1 kv with
      | some mg => dictSet acc mg.1 mg.2
      | none => acc) acc = acc ++ d.filterMap detect1 := by
  induction d with
  | nil => intro acc _ _; simp
  | cons kv rest ih =>
    intro acc hacc hnames
    cases hdet : detect1 kv with
    | none =>
      simp only [List.filterMap_cons, hdet] at hacc hnames ⊢
      simp only [List.foldl_cons, hdet]
      exact ih acc hacc hnames
    | some mg =>
      simp only [List.filterMap_cons, hdet] at hacc hnames ⊢
      simp only [List.foldl_cons, hdet]
      rw [dictSet_of_not_mem acc mg.1 mg.2 (hacc mg (List.mem_cons_self _ _))]
      rw [List.map_cons, List.nodup_cons] at hnames
      rw [ih (acc ++ [(mg.1, mg.2)]) ?fresh hnames.2]
      · rw [List.append_assoc]; rfl
      case fresh =>
        intro mg' hmg'
        rw [show dictKeys (acc ++ [(mg.1, mg.2)]) = dictKeys acc ++ [mg.1] by
          simp [dictKeys]]
        rw [List.mem_append]
        rintro (h | h)
        · exact hacc mg' (List.mem_cons_of_mem _ hmg') h
        · simp only [List.mem_singleton] at h
          exact hnames.1 (h ▸ List.mem_map_of_mem Prod.fst hmg')

theorem candidateMetrics_eq_filterMap (d : List (String × J))
    (hnd : (dictKeys d).Nodup) :
    candidateMetrics d = d.filterMap detect1 := by
  unfold candidateMetrics
  rw [candidateMetrics_foldl_eq d [] (by simp [dictKeys]) (detect_names_nodup d hnd)]
  rfl

theorem mem_candidateMetrics_iff (d : List (String × J)) (hnd : (dictKeys d).Nodup)
    (m : String) (g : List (String × J)) :
    (m, g) ∈ candidateMetrics d ↔ (m ++ "_Candidates", J.obj g) ∈ d := by
  rw [candidateMetrics_eq_filterMap d hnd, List.mem_filterMap]
  constructor
  · rintro ⟨⟨k, v⟩, hkv, hdet⟩
    obtain ⟨hse, hv, hn⟩ := (detect1_some_iff k v m g).1 hdet
    have hk : k = m ++ "_Candidates" := by
      rw [eq_append_of_strEndsWith hse, ← hn]
    rw [← hk, ← hv]
    exact hkv
  · intro hmem
    refine ⟨(m ++ "_Candidates", J.obj g), hmem, ?_⟩
    rw [detect1_some_iff]
    exact ⟨strEndsWith_append m, rfl, (strDropRight_append m).symm⟩

theorem candidateMetrics_foldl_nil :
    ∀ (d : List (String × J)) (acc : List (String × List (String × J))),
    (∀ kv ∈ d, detect1 kv = none) →
    d.foldl (fun acc kv =>
      match detect1 kv with
      | some mg => dictSet acc mg.1 mg.2
      | none => acc) acc = acc := by
  intro d
  induction d with
  | nil => intro acc _; rfl
  | cons kv rest ih =>
    intro acc hall
    simp only [List.foldl_cons, hall kv (List.mem_cons_self _ _)]
    exact ih acc (fun kv' h' => hall kv' (List.mem_cons_of_mem _ h'))

theorem candidateMetrics_eq_nil (d : List (String × J))
    (h : ∀ kv ∈ d, detect1 kv = none) : candidateMetrics d = [] := by
  unfold candidateMetrics
  exact candidateMetrics_foldl_nil d [] h

/-! ## Confirmation-handler lemmas -/

theorem confirm_go (pick : String → String) :
    ∀ (L : List (String × List (String × J))) (dc : List (String × J)),
    (dictKeys dc).Nodup →
    (∀ p ∈ L, strEndsWith p.1 "_Candidates" = false) →
    (L.map Prod.fst).Nodup →
    (∀ p ∈ L, dictGet dc (p.1 ++ "_Candidates") = some (J.obj p.2)) →
    (∀ p ∈ L, (dictGet p.2 (pick p.1)).isSome = true) →
    ∃ d', confirmSelections dc (L.map (fun p => (p.1, pick p.1))) = some d' ∧
      (∀ p ∈ L, dictGet d' (p.1 ++ "_Candidates") = none ∧
        dictGet d' p.1 = dictGet p.2 (pick p.1)) ∧
      (∀ k : String, (∀ p ∈ L, k ≠ p.1 ∧ k ≠ p.1 ++ "_Candidates") →
        dictGet d' k = dictGet dc k) := by
  intro L
  induction L with
  | nil =>
    intro dc _ _ _ _ _
    exact ⟨dc, rfl, by simp, fun k _ => rfl⟩
  | cons hd L' ih =>
    intro dc hnd hsfx hnames hpresent hpick
    obtain ⟨m, g⟩ := hd
    have hm_nsfx : strEndsWith m "_Candidates" = false :=
      hsfx (m, g) (List.mem_cons_self _ _)
    have hsfx' : ∀ p ∈ L', strEndsWith p.1 "_Candidates" = false :=
      fun p hp => hsfx p (List.mem_cons_of_mem _ hp)
    have hgm : dictGet dc (m ++ "_Candidates") = some (J.obj g) :=
      hpresent (m, g) (List.mem_cons_self _ _)
    obtain ⟨v, hv0⟩ := Option.isSome_iff_exists.1 (hpick (m, g) (List.mem_cons_self _ _))
    have hv : dictGet g (pick m) = some v := hv0
    have hnames' : (L'.map Prod.fst).Nodup := (List.nodup_cons.1 hnames).2
    have hm_not : m ∉ L'.map Prod.fst := (List.nodup_cons.1 hnames).1
    have hnd1 : (dictKeys (dictDel (dictSet dc m v) (m ++ "_Candidates"))).Nodup :=
      dictKeys_del_nodup _ _ (dictKeys_set_nodup _ _ _ hnd)
    have hpresent' : ∀ p ∈ L',
        dictGet (dictDel (dictSet dc m v) (m ++ "_Candidates")) (p.1 ++ "_Candidates")
          = some (J.obj p.2) := by
      intro p hp
      have h1 : p.1 ++ "_Candidates" ≠ m ++ "_Candidates" := by
        intro he
        have hpm : p.1 = m := append_cancel_str he
        exact hm_not (hpm ▸ List.mem_map_of_mem Prod.fst hp)
      have h2 : p.1 ++ "_Candidates" ≠ m :=
        Ne.symm (ne_of_not_strEndsWith hm_nsfx)
      rw [dictGet_del_ne _ _ _ h1, dictGet_set_ne _ _ _ _ h2]
      exact hpresent p (List.mem_cons_of_mem _ hp)
    have hpick' : ∀ p ∈ L', (dictGet p.2 (pick p.1)).isSome = true :=
      fun p hp => hpick p (List.mem_cons_of_mem _ hp)
    obtain ⟨d', hconf, hpost, hframe⟩ :=
      ih (dictDel (dictSet dc m v) (m ++ "_Candidates")) hnd1 hsfx' hnames' hpresent' hpick'
    refine ⟨d', ?_, ?_, ?_⟩
    · show confirmSelections dc ((m, pick m) :: L'.map (fun p => (p.1, pick p.1))) = some d'
      unfold confirmSelections
      simp only [hgm, hv]
      exact hconf
    · intro p hp
      rcases List.mem_cons.1 hp with heq | hp'
      · obtain rfl : p = (m, g) := heq
        constructor
        · rw [hframe (m ++ "_Candidates") ?hside1]
          · exact dictGet_del_self _ _ (dictKeys_set_nodup _ _ _ hnd)
          case hside1 =>
            intro q hq
            refine ⟨Ne.symm (ne_of_not_strEndsWith (hsfx' q hq)), ?_⟩
            intro he
            exact hm_not (append_cancel_str he ▸ List.mem_map_of_mem Prod.fst hq)
        · rw [hframe m ?hside2]
          · rw [dictGet_del_ne _ _ _ (Ne.symm (append_cand_ne_self m)), dictGet_set_self]
            exact hv.symm
          case hside2 =>
            intro q hq
            refine ⟨?_, ne_of_not_strEndsWith hm_nsfx⟩
            intro he
            exact hm_not (he ▸ List.mem_map_of_mem Prod.fst hq)
      · exact hpost p hp'
    · intro k hk
      rw [hframe k (fun q hq => hk q (List.mem_cons_of_mem _ hq)),
        dictGet_del_ne _ _ _ (hk (m, g) (List.mem_cons_self _ _)).2,
        dictGet_set_ne _ _ _ _ (hk (m, g) (List.mem_cons_self _ _)).1]

/-! ## Direct-write lemmas -/

theorem directWrite_diags (nr : List (String × List (String × String))) :
    ∀ (rs : List (String × J)) (cells : List ((String × String) × J)),
    (directWrite nr rs cells).diags
      = (rs.filter (fun kv => (dictGet nr kv.1).isNone)).map
          (fun kv => Diag.missingDestination kv.1) := by
  intro rs
  induction rs with
  | nil => intro cells; rfl
  | cons kv rest ih =>
    intro cells
    obtain ⟨k, v⟩ := kv
    cases hg : dictGet nr k with
    | some dests =>
      simp only [directWrite, hg, List.filter_cons]
      rw [ih]
      simp [hg]
    | none =>
      simp only [directWrite, hg, List.filter_cons]
      rw [ih]
      simp [hg]

theorem directWrite_writes_mem (nr : List (String × List (String × String))) :
    ∀ (rs : List (String × J)) (cells : List ((String × String) × J))
      {k : String} {v : J} {dests : List (String × String)} {dcell : String × String},
    (k, v) ∈ rs → dictGet nr k = some dests → dcell ∈ dests →
    (dcell, v) ∈ (directWrite nr rs cells).writes := by
  intro rs
  induction rs with
  | nil => intro cells k v dests dcell h _ _; simp at h
  | cons kv rest ih =>
    intro cells k v dests dcell hmem hget hd
    obtain ⟨k', v'⟩ := kv
    rcases List.mem_cons.1 hmem with heq | htail
    · have hk : k' = k ∧ v' = v := by
        have := heq.symm
        simp only [Prod.mk.injEq] at this
        exact this
      obtain ⟨rfl, rfl⟩ := hk
      simp only [directWrite, hget]
      apply List.mem_append_left
      exact List.mem_map_of_mem _ hd
    · cases hg' : dictGet nr k' with
      | some dests' =>
        simp only [directWrite, hg']
        exact List.mem_append_right _ (ih _ htail hget hd)
      | none =>
        simp only [directWrite, hg']
        exact ih _ htail hget hd

theorem diags_count_zero (nr : List (String × List (String × String)))
    (rs : List (String × J)) (k : String) (hk : k ∉ dictKeys rs)
    (cells : List ((String × String) × J)) :
    (directWrite nr rs cells).diags.count (Diag.missingDestination k) = 0 := by
  rw [directWrite_diags, List.count_eq_zero]
  intro hmem
  rw [List.mem_map] at hmem
  obtain ⟨kv, hkv, heq⟩ := hmem
  have hkk : kv.1 = k := by injection heq
  exact hk (hkk ▸ List.mem_map_of_mem Prod.fst (List.mem_of_mem_filter hkv))

theorem diags_count_one (nr : List (String × List (String × String)))
    (rs : List (String × J)) (hnd : (dictKeys rs).Nodup)
    (k : String) (hk : k ∈ dictKeys rs) (hmiss : dictGet nr k = none)
    (cells : List ((String × String) × J)) :
    (directWrite nr rs cells).diags.count (Diag.missingDestination k) = 1 := by
  induction rs generalizing cells with
  | nil => simp [dictKeys] at hk
  | cons kv rest ih =>
    obtain ⟨k', v'⟩ := kv
    simp only [dictKeys, List.map_cons, List.nodup_cons] at hnd
    rcases List.mem_cons.1 hk with heq | htail
    · subst heq
      simp only [directWrite, hmiss]
      rw [List.count_cons_self, diags_count_zero nr rest k hnd.1 cells]
    · have hne : k ≠ k' := by
        intro he
        exact hnd.1 (he ▸ htail)
      cases hg' : dictGet nr k' with
      | none =>
        simp only [directWrite, hg']
        rw [List.count_cons_of_ne (by simpa using hne), ih hnd.2 htail]
      | some dests =>
        simp only [directWrite, hg']
        exact ih hnd.2 htail _

/-! ## Claim theorems -/

/-- Claim C1: for a PDF upload, `extract_text` first checks whether any
page yields non-empty embedded text; if so it returns the text-layer
reads of the pages joined with newlines, and if no page yields embedded
text it returns the page-order OCR concatenation — and in that case the
result does not depend on the embedded text-layer reader at all (the
text-layer values can be changed arbitrarily without affecting the
output). -/
theorem c1_extract_text_policy (pages : List PdfPage) :
    (pages.any (fun p => p.fitzText ≠ "") = true →
      extract_text (CimFile.pdf pages)
        = String.intercalate "\n" (pages.filterMap plumberKeep)) ∧
    ((∀ p ∈ pages, p.fitzText = "") →
      extract_text (CimFile.pdf pages) = ocrConcat pages ∧
      ∀ f : PdfPage → Option String,
        extract_text (CimFile.pdf (pages.map (fun p =>
          { p with plumberText := f p }))) = extract_text (CimFile.pdf pages)) := by
  constructor
  · intro hany
    unfold extract_text
    dsimp only
    rw [hany, if_pos rfl]
  · intro hall
    have hany : pages.any (fun p => p.fitzText ≠ "") = false := by
      rw [List.any_eq_false]
      intro p hp
      simp [hall p hp]
    have hocr : extract_text (CimFile.pdf pages) = ocrConcat pages := by
      unfold extract_text
      dsimp only
      rw [hany, if_neg (by decide : ¬(false = true))]
    refine ⟨hocr, ?_⟩
    intro f
    have hany2 : (pages.map (fun p => ({ p with plumberText := f p } : PdfPage))).any
        (fun p => p.fitzText ≠ "") = false := by
      rw [List.any_map]
      exact hany
    rw [hocr]
    unfold extract_text
    dsimp only
    rw [hany2, if_neg (by decide : ¬(false = true))]
    unfold ocrConcat
    rw [List.foldl_map]

/-- Witness for claim C1 at concrete pages: a scanned PDF (both pages
have empty embedded text) routes through OCR, unchanged when the
text-layer reads are overwritten; a digital PDF uses the text layer. -/
theorem c1_extract_text_policy_witness :
    extract_text (CimFile.pdf [⟨"", some "UNUSED", "ocr1"⟩, ⟨"", none, "ocr2"⟩])
        = "ocr1\nocr2\n" ∧
    extract_text (CimFile.pdf (([⟨"", some "UNUSED", "ocr1"⟩,
        ⟨"", none, "ocr2"⟩] : List PdfPage).map
        (fun p => { p with plumberText := some "INJECTED" }))) = "ocr1\nocr2\n" ∧
    extract_text (CimFile.pdf [⟨"x", some "p1", "o1"⟩, ⟨"", some "", "o2"⟩, ⟨"", none, "o3"⟩])
        = "p1" := by
  obtain ⟨ha, hb⟩ :=
    (c1_extract_text_policy [⟨"", some "UNUSED", "ocr1"⟩, ⟨"", none, "ocr2"⟩]).2 (by decide)
  refine ⟨?_, ?_, ?_⟩
  · rw [ha]; rfl
  · rw [hb (fun _ => some "INJECTED"), ha]; rfl
  · rw [(c1_extract_text_policy
      [⟨"x", some "p1", "o1"⟩, ⟨"", some "", "o2"⟩, ⟨"", none, "o3"⟩]).1 (by decide)]
    rfl

/-- Counterexample to claim C2 as stated: the JSON object text
`{"a": "x(three backticks)y"}` is well formed, but the fence-stripping
regex also deletes the backticks inside the string literal, so the
cleaned wrapped text decodes to a different structure than the
original. -/
theorem c2_clean_roundtrip_counterexample :
    jsonLoads jsonBticks = some (J.obj [("a", J.str "x```y")]) ∧
    safe_json_parse (fenceWrap jsonBticks) = some (J.obj [("a", J.str "xy")]) ∧
    jsonLoads jsonBticks ≠ safe_json_parse (fenceWrap jsonBticks) := by
  refine ⟨rfl, rfl, ?_⟩
  intro h
  have h2 := congrArg firstField h
  rw [show firstField (jsonLoads jsonBticks) = some ("a", J.str "x```y") from rfl,
    show firstField (safe_json_parse (fenceWrap jsonBticks)) = some ("a", J.str "xy") from rfl]
    at h2
  simp only [Option.some.injEq, Prod.mk.injEq] at h2
  have h3 := h2.2
  injection h3 with hstr
  exact absurd hstr (by decide)

/-- Claim C2 (amended): for every well-formed JSON object text that
contains no run of three backticks (the fence marker the cleanup strips),
wrapping it in markdown code fences and passing it through the
response-cleaning step yields text that decodes to exactly the same
structure as the unwrapped original.  A JSON object text here starts
with an opening brace and ends with a closing brace. -/
theorem c2_clean_roundtrip (t : String) (v : J)
    (hf : hasFence t.data = false)
    (hh : t.data.head? = some (Char.ofNat 123))
    (hl : t.data.getLast? = some (Char.ofNat 125))
    (hv : jsonLoads t = some v) :
    safe_json_parse (fenceWrap t) = some v := by
  unfold safe_json_parse
  rw [cleanResponse_fenceWrap t hf hh hl]
  exact hv

/-- Witness for claim C2's amendment at a concrete fenced object. -/
theorem c2_clean_roundtrip_witness :
    hasFence ("\x7b\"k\": 1\x7d" : String).data = false ∧
    jsonLoads "\x7b\"k\": 1\x7d" = some (J.obj [("k", J.num "1")]) ∧
    safe_json_parse (fenceWrap "\x7b\"k\": 1\x7d") = some (J.obj [("k", J.num "1")]) :=
  ⟨by decide, rfl, c2_clean_roundtrip _ _ (by decide) (by decide) (by decide) rfl⟩

/-- Counterexample to claim C3 as stated: there is no fixed constant N
such that the prompt depends only on the first N characters of the
extracted text — `build_ai_prompt` interpolates the whole text, so for
any N a text of length N+1 already falsifies the truncation claim. -/
theorem c3_prompt_truncation_counterexample :
    ¬ ∃ N : Nat, ∀ t : String, build_ai_prompt t = build_ai_prompt ⟨t.data.take N⟩ := by
  rintro ⟨N, h⟩
  have he := h ⟨List.replicate (N + 1) 'a'⟩
  have hd := congrArg String.data he
  unfold build_ai_prompt at hd
  rw [str_data_append, str_data_append, str_data_append, str_data_append] at hd
  have hlen := congrArg List.length hd
  simp only [List.length_append, List.length_replicate, List.length_take] at hlen
  omega

/-- Claim C3 (amended): the prompt builder is a deterministic function
of the extracted text that embeds the full text with no truncation — the
prompt is the fixed header, the entire text, then the fixed footer, and
texts differing anywhere give different prompts. -/
theorem c3_prompt_full_text :
    (∀ t₁ t₂ : String, build_ai_prompt t₁ = build_ai_prompt t₂ ↔ t₁ = t₂) ∧
    (∀ t : String, (build_ai_prompt t).data
      = promptHeader.data ++ t.data ++ promptFooter.data) := by
  constructor
  · intro t₁ t₂
    constructor
    · intro h
      have hd := congrArg String.data h
      unfold build_ai_prompt at hd
      rw [str_data_append, str_data_append, str_data_append, str_data_append] at hd
      exact strExt (List.append_cancel_left (List.append_cancel_right hd))
    · rintro rfl; rfl
  · intro t
    unfold build_ai_prompt
    rw [str_data_append, str_data_append]

/-- Claim C4: whenever the decoded result has at least one candidate
group and no confirmation has been recorded in the session state, the
run never reaches the Excel-processing stage (the gate blocks the whole
pipeline). -/
theorem c4_gate_blocks_excel (resp : String) (sess : SessionState) (button : Bool)
    (pick : String → String) (fields : List (String × J))
    (hparse : safe_json_parse resp = some (J.obj fields))
    (hcm : candidateMetrics fields ≠ [])
    (hsel : sess.selections_made = false) :
    (runScript resp sess button pick).excelReached = false := by
  unfold runScript
  rw [hparse]
  dsimp only
  have hempty : (candidateMetrics fields).isEmpty = false := by
    cases hc : candidateMetrics fields with
    | nil => exact absurd hc hcm
    | cons a l => rfl
  rw [hempty]
  rw [if_neg (by decide : ¬(false = true))]
  split
  · split
    · rfl
    · rfl
  · split
    · rfl
    · rename_i hcontra
      rw [hsel] at hcontra
      simp at hcontra

/-- Witness for claim C4: a response with one candidate group, an
unconfirmed session, and even the confirm button pressed still does not
reach the Excel stage in the same run. -/
theorem c4_gate_blocks_excel_witness :
    safe_json_parse "\x7b\"EBITDA_Candidates\": \x7b\"A\": [1]\x7d\x7d"
      = some (J.obj [("EBITDA_Candidates", J.obj [("A", J.arr [J.num "1"])])]) ∧
    candidateMetrics [("EBITDA_Candidates", J.obj [("A", J.arr [J.num "1"])])] ≠ [] ∧
    (runScript "\x7b\"EBITDA_Candidates\": \x7b\"A\": [1]\x7d\x7d"
      ⟨false, []⟩ true (fun _ => "A")).excelReached = false := by
  have hne : candidateMetrics [("EBITDA_Candidates", J.obj [("A", J.arr [J.num "1"])])] ≠ [] := by
    rw [show candidateMetrics [("EBITDA_Candidates", J.obj [("A", J.arr [J.num "1"])])]
      = [("EBITDA", [("A", J.arr [J.num "1"])])] from rfl]
    exact List.cons_ne_nil _ _
  exact ⟨rfl, hne, c4_gate_blocks_excel _ _ _ _ _ rfl hne rfl⟩

/-- Counterexample to claim C5 as stated: with the nested-suffix keys
`A_Candidates` and `A_Candidates_Candidates` both detected as groups
(metric names `A` and `A_Candidates`), confirming both selections ends
with the resolved key `A_Candidates` present again in the result set,
so a resolved `_Candidates` key does remain after confirmation. -/
theorem c5_confirm_counterexample :
    candidateMetrics
        [("A_Candidates", J.obj [("x", J.arr [J.num "1"])]),
         ("A_Candidates_Candidates", J.obj [("y", J.arr [J.num "2"])])]
      = [("A", [("x", J.arr [J.num "1"])]), ("A_Candidates", [("y", J.arr [J.num "2"])])] ∧
    confirmSelections
        [("A_Candidates", J.obj [("x", J.arr [J.num "1"])]),
         ("A_Candidates_Candidates", J.obj [("y", J.arr [J.num "2"])])]
        [("A", "x"), ("A_Candidates", "y")]
      = some [("A", J.arr [J.num "1"]), ("A_Candidates", J.arr [J.num "2"])] ∧
    strEndsWith "A_Candidates" "_Candidates" = true ∧
    "A_Candidates" ∈ dictKeys
      [("A", J.arr [J.num "1"]), ("A_Candidates", J.arr [J.num "2"])] := by
  refine ⟨rfl, rfl, by decide, by decide⟩

/-- Claim C5 (amended): provided no detected metric name itself ends in
`_Candidates` (no nested-suffix keys), confirming the selections
succeeds, deletes every group entry, and stores exactly the chosen
variant's value under each suffix-stripped key; no resolved
`_Candidates` key remains. -/
theorem c5_confirm_resolution (d : List (String × J)) (pick : String → String)
    (hnd : (dictKeys d).Nodup)
    (hsfx : ∀ p ∈ candidateMetrics d, strEndsWith p.1 "_Candidates" = false)
    (hpick : ∀ p ∈ candidateMetrics d, (dictGet p.2 (pick p.1)).isSome = true) :
    ∃ d', confirmSelections d ((candidateMetrics d).map (fun p => (p.1, pick p.1))) = some d' ∧
      ∀ p ∈ candidateMetrics d,
        dictGet d' (p.1 ++ "_Candidates") = none ∧
        dictGet d' p.1 = dictGet p.2 (pick p.1) := by
  have hnames : ((candidateMetrics d).map Prod.fst).Nodup := by
    rw [candidateMetrics_eq_filterMap d hnd]
    exact detect_names_nodup d hnd
  have hpresent : ∀ p ∈ candidateMetrics d,
      dictGet d (p.1 ++ "_Candidates") = some (J.obj p.2) := by
    intro p hp
    have hm : (p.1 ++ "_Candidates", J.obj p.2) ∈ d := by
      rw [← mem_candidateMetrics_iff d hnd p.1 p.2]
      exact hp
    exact dictGet_of_mem_nodup hm hnd
  obtain ⟨d', hconf, hpost, -⟩ :=
    confirm_go pick (candidateMetrics d) d hnd hsfx hnames hpresent hpick
  exact ⟨d', hconf, hpost⟩

/-- Witness for claim C5's amendment at a concrete one-group result. -/
theorem c5_confirm_resolution_witness :
    ∃ d', confirmSelections [("EBITDA_Candidates", J.obj [("A", J.arr [J.num "1"])])]
        ((candidateMetrics [("EBITDA_Candidates", J.obj [("A", J.arr [J.num "1"])])]).map
          (fun p => (p.1, (fun _ => "A") p.1))) = some d' ∧
      ∀ p ∈ candidateMetrics [("EBITDA_Candidates", J.obj [("A", J.arr [J.num "1"])])],
        dictGet d' (p.1 ++ "_Candidates") = none ∧
        dictGet d' p.1 = dictGet p.2 ((fun _ => "A") p.1) :=
  c5_confirm_resolution [("EBITDA_Candidates", J.obj [("A", J.arr [J.num "1"])])]
    (fun _ => "A") (by decide) (by decide) (by decide)

/-- Claim C6: when the cleaned response fails to decode, the parse step
returns `none` instead of raising, the raw offending response text is
surfaced to the operator, and the run ends before the Excel stage with
no decoded data. -/
theorem c6_malformed_response_aborts (resp : String) (sess : SessionState) (button : Bool)
    (pick : String → String) (hfail : safe_json_parse resp = none) :
    (runScript resp sess button pick).surfacedRaw = some resp ∧
    (runScript resp sess button pick).excelReached = false ∧
    (runScript resp sess button pick).cimFinal = none := by
  unfold runScript
  rw [hfail]
  exact ⟨rfl, rfl, rfl⟩

/-- Witness for claim C6 at a concrete undecodable response. -/
theorem c6_malformed_response_aborts_witness :
    safe_json_parse "no json here" = none ∧
    (runScript "no json here" ⟨false, []⟩ false (fun _ => "")).surfacedRaw
      = some "no json here" ∧
    (runScript "no json here" ⟨false, []⟩ false (fun _ => "")).excelReached = false := by
  refine ⟨rfl, ?_, ?_⟩
  · exact (c6_malformed_response_aborts "no json here" ⟨false, []⟩ false (fun _ => "") rfl).1
  · exact (c6_malformed_response_aborts "no json here" ⟨false, []⟩ false (fun _ => "") rfl).2.1

/-- Counterexample to claim C7 as stated: a sheet with eleven formula
cells loses its eleventh from the metadata record (`formulas[:10]`), so
a formula-bearing cell is omitted from the list. -/
theorem c7_formula_truncation_counterexample :
    ("A11", CellVal.s "=B11") ∈ sheetC7.cells ∧
    formulaOf (CellVal.s "=B11") = some "=B11" ∧
    ("A11", "=B11") ∈ formulaCells sheetC7 ∧
    ("A11", "=B11") ∉ (extractSheetMeta sheetC7).formulas := by
  refine ⟨by decide, by decide, by decide, by decide⟩

/-- Claim C7 (amended): each sheet's metadata record holds the row
extent, the column extent, and the ordered list of the first ten
formula-bearing cells (coordinate and verbatim formula text, in
row-major order); when a sheet has at most ten formula cells the list is
complete, and every recorded pair comes verbatim from a cell of the
sheet whose string value starts with the formula marker. -/
theorem c7_sheet_metadata (sheet : Sheet) :
    (extractSheetMeta sheet).max_row = sheet.maxRow ∧
    (extractSheetMeta sheet).max_col = sheet.maxCol ∧
    (extractSheetMeta sheet).formulas = (formulaCells sheet).take 10 ∧
    ((formulaCells sheet).length ≤ 10 →
      (extractSheetMeta sheet).formulas = formulaCells sheet) ∧
    (∀ p ∈ (extractSheetMeta sheet).formulas,
      (p.1, CellVal.s p.2) ∈ sheet.cells ∧ strStartsWith p.2 "=" = true) := by
  refine ⟨rfl, rfl, rfl, ?_, ?_⟩
  · intro hle
    show (formulaCells sheet).take 10 = formulaCells sheet
    exact List.take_of_length_le hle
  · intro p hp
    have hp' : p ∈ formulaCells sheet := List.take_subset _ _ hp
    unfold formulaCells at hp'
    rw [List.mem_filterMap] at hp'
    obtain ⟨⟨coord, v⟩, hcv, hmap⟩ := hp'
    cases v with
    | s tstr =>
      by_cases hcond : (tstr ≠ "" && strStartsWith tstr "=") = true
      · rw [Bool.and_eq_true] at hcond
        obtain ⟨h1, h2⟩ := hcond
        have h1' : tstr ≠ "" := by simpa using h1
        rw [show formulaOf (CellVal.s tstr) = some tstr by simp [formulaOf, h1', h2]] at hmap
        have hpe : (coord, tstr) = p := by simpa using hmap
        rw [← hpe]
        exact ⟨hcv, h2⟩
      · rw [show formulaOf (CellVal.s tstr) = none by
          unfold formulaOf; dsimp only; rw [if_neg hcond]] at hmap
        simp at hmap
    | empty => simp [formulaOf] at hmap
    | i n => simp [formulaOf] at hmap
    | b bb => simp [formulaOf] at hmap

/-- Witness for claim C7's amendment at a concrete small sheet. -/
theorem c7_sheet_metadata_witness :
    (extractSheetMeta sheetW7).formulas = formulaCells sheetW7 ∧
    (("A1", CellVal.s "=SUM(B:B)") ∈ sheetW7.cells ∧
      strStartsWith "=SUM(B:B)" "=" = true) := by
  refine ⟨(c7_sheet_metadata sheetW7).2.2.2.1 (by decide), ?_⟩
  exact (c7_sheet_metadata sheetW7).2.2.2.2 ("A1", "=SUM(B:B)") (by decide)

/-- Claim C8: the advisory Excel stage returns the workbook unmodified —
the serialized output is exactly the loaded workbook, so in particular
every sheet's formula cells are preserved verbatim. -/
theorem c8_advisory_preserves_workbook :
    (∀ wb : List Sheet, (excelAdvisoryStage wb).savedWorkbook = wb) ∧
    (∀ wb : List Sheet,
      (excelAdvisoryStage wb).savedWorkbook.map (fun sh => (sh.name, formulaCells sh))
        = wb.map (fun sh => (sh.name, formulaCells sh))) :=
  ⟨fun _ => rfl, fun _ => rfl⟩

/-- Claim C9 (spec-modelled, direct-write policy absent from src): every
metric key without a named range yields exactly one MissingDestination
diagnostic, and every key with a named range still has its value written
to every destination cell of the range — no missing mapping aborts the
batch. -/
theorem c9_direct_write_missing_destination
    (nr : List (String × List (String × String))) (rs : List (String × J))
    (cells : List ((String × String) × J)) (hnd : (dictKeys rs).Nodup) :
    (∀ k ∈ dictKeys rs, dictGet nr k = none →
      (directWrite nr rs cells).diags.count (Diag.missingDestination k) = 1) ∧
    (∀ (k : String) (v : J) (dests : List (String × String)) (dcell : String × String),
      (k, v) ∈ rs → dictGet nr k = some dests → dcell ∈ dests →
      (dcell, v) ∈ (directWrite nr rs cells).writes) :=
  ⟨fun k hk hm => diags_count_one nr rs hnd k hk hm cells,
   fun _ _ _ _ hmem hget hd => directWrite_writes_mem nr rs cells hmem hget hd⟩

/-- Witness for claim C9: `Revenue` has a two-cell named range, `EBITDA`
has none; the run records exactly one MissingDestination for `EBITDA`
and still writes `Revenue` to both destinations. -/
theorem c9_direct_write_missing_destination_witness :
    (directWrite nrW9 [("Revenue", J.num "100"), ("EBITDA", J.num "5")] []).diags.count
        (Diag.missingDestination "EBITDA") = 1 ∧
    (("Model", "B2"), J.num "100")
        ∈ (directWrite nrW9 [("Revenue", J.num "100"), ("EBITDA", J.num "5")] []).writes ∧
    (("Model", "C2"), J.num "100")
        ∈ (directWrite nrW9 [("Revenue", J.num "100"), ("EBITDA", J.num "5")] []).writes := by
  have h := c9_direct_write_missing_destination nrW9
    [("Revenue", J.num "100"), ("EBITDA", J.num "5")] [] (by decide)
  refine ⟨h.1 "EBITDA" (by decide) rfl, ?_, ?_⟩
  · exact h.2 "Revenue" (J.num "100") [("Model", "B2"), ("Model", "C2")] ("Model", "B2")
      (List.mem_cons_self _ _) rfl (by decide)
  · exact h.2 "Revenue" (J.num "100") [("Model", "B2"), ("Model", "C2")] ("Model", "C2")
      (List.mem_cons_self _ _) rfl (by decide)

/-- Claim C10: a top-level key is detected as a candidate group exactly
when it ends with `_Candidates` and its value is a dict; when every
suffix-bearing key has a non-dict value, nothing is detected, no
confirmation is requested, and the decoded result reaches the Excel
stage unchanged. -/
theorem c10_candidate_detection :
    (∀ fields : List (String × J), (dictKeys fields).Nodup →
      ∀ (m : String) (g : List (String × J)),
        ((m, g) ∈ candidateMetrics fields ↔ (m ++ "_Candidates", J.obj g) ∈ fields)) ∧
    (∀ fields : List (String × J),
      (∀ kv ∈ fields, strEndsWith kv.1 "_Candidates" = true → ∀ g, kv.2 ≠ J.obj g) →
      candidateMetrics fields = [] ∧
      ∀ (resp : String) (sess : SessionState) (button : Bool) (pick : String → String),
        safe_json_parse resp = some (J.obj fields) →
        (runScript resp sess button pick).excelReached = true ∧
        (runScript resp sess button pick).cimFinal = some fields) := by
  constructor
  · exact fun fields hnd m g => mem_candidateMetrics_iff fields hnd m g
  · intro fields hnodict
    have hnil : candidateMetrics fields = [] := by
      apply candidateMetrics_eq_nil
      intro kv hkv
      unfold detect1
      by_cases hse : strEndsWith kv.1 "_Candidates" = true
      · rw [if_pos hse]
        cases hkv2 : kv.2 with
        | obj g => exact absurd hkv2 (hnodict kv hkv hse g)
        | null => rfl
        | bool b => rfl
        | num r => rfl
        | str s => rfl
        | arr xs => rfl
      · rw [if_neg hse]
    refine ⟨hnil, ?_⟩
    intro resp sess button pick hparse
    unfold runScript
    rw [hparse]
    dsimp only
    rw [hnil]
    exact ⟨rfl, rfl⟩

/-- Witness for claim C10: a `_Candidates` key holding a list (not a
dict) is not detected; the run reaches the Excel stage with the decoded
result unchanged, and the detection characterization holds at a genuine
group. -/
theorem c10_candidate_detection_witness :
    candidateMetrics [("EBITDA_Candidates", J.arr [J.num "1"])] = [] ∧
    (runScript "\x7b\"EBITDA_Candidates\": [1]\x7d" ⟨false, []⟩ false
      (fun _ => "")).excelReached = true ∧
    (runScript "\x7b\"EBITDA_Candidates\": [1]\x7d" ⟨false, []⟩ false
      (fun _ => "")).cimFinal = some [("EBITDA_Candidates", J.arr [J.num "1"])] ∧
    (("EBITDA", [("A", J.arr [J.num "2"])])
        ∈ candidateMetrics [("EBITDA_Candidates", J.obj [("A", J.arr [J.num "2"])])] ↔
      ("EBITDA" ++ "_Candidates", J.obj [("A", J.arr [J.num "2"])])
        ∈ [("EBITDA_Candidates", J.obj [("A", J.arr [J.num "2"])])]) := by
  have hno : ∀ kv ∈ [("EBITDA_Candidates", J.arr [J.num "1"])],
      strEndsWith kv.1 "_Candidates" = true → ∀ g, kv.2 ≠ J.obj g := by
    intro kv hkv hse g h
    rw [List.mem_singleton] at hkv
    subst hkv
    simp at h
  have hb := c10_candidate_detection.2 [("EBITDA_Candidates", J.arr [J.num "1"])] hno
  have hrun := hb.2 "\x7b\"EBITDA_Candidates\": [1]\x7d" ⟨false, []⟩ false (fun _ => "") rfl
  exact ⟨hb.1, hrun.1, hrun.2,
    c10_candidate_detection.1 [("EBITDA_Candidates", J.obj [("A", J.arr [J.num "2"])])]
      (by decide) "EBITDA" [("A", J.arr [J.num "2"])]⟩

end LBO
